import Mathlib

set_option maxHeartbeats 1000000

/-!
Verification of the gradle-focus-mode core (focus-ui server):
configuration parsing/serialization, dependency-graph construction,
bounded reverse-reachability (`computeIncluded`/`addDependents`), and the
git-change watcher tick.  Strings are modelled with Lean `String`/`List
Char`; the JS `Set` objects are modelled as duplicate-free lists with
insertion at the tail, so membership coincides with JS `Set.has`.
-/

/-- The single-quote character, written by code point to keep source plain. -/
def quoteChar : Char := Char.ofNat 39

/-- Model of `String(i).padStart(3, '0')` for a decimal rendering `s`. -/
def padStart3 (s : List Char) : List Char :=
  if s.length ≥ 3 then s else List.replicate (3 - s.length) '0' ++ s

/-- Decimal digit character for `d < 10`. -/
def digitChar (d : Nat) : Char := Char.ofNat (48 + d)

/-- Fuel-driven decimal rendering (fuel bounds the recursion on `n / 10`). -/
def natToDigitsAux : Nat → Nat → List Char
  | 0, _ => []
  | fuel + 1, n =>
    if n < 10 then [digitChar n] else natToDigitsAux fuel (n / 10) ++ [digitChar (n % 10)]

/-- Decimal rendering of a natural number, as JS `String(n)` produces. -/
def natToDigits (n : Nat) : List Char := natToDigitsAux (n + 1) n

/-- JS numeric `parseInt` on a digit capture: value of a digit string. -/
def digitsVal (s : List Char) : Nat := s.foldl (fun a c => a * 10 + (c.toNat - 48)) 0

/-- The identifier `project-${String(i).padStart(3, '0')}`. -/
def projectId (i : Nat) : String := "project-" ++ String.mk (padStart3 (natToDigits i))

/-- The fixed project universe `project-001 … project-100`. -/
def allProjects : List String := (List.range 100).map (fun i => projectId (i + 1))

/-- JS `Set.add`: append the element unless already present. -/
def addSet (l : List String) (x : String) : List String :=
  if x ∈ l then l else l ++ [x]

/-- Lookup `reverseDepMap[proj] || []`. -/
def lookupRev (rev : List (String × List String)) (proj : String) : List String :=
  (rev.lookup proj).getD []

/-- The `dependents.forEach` loop body of `addDependents`: each dependent
not yet included is added and expanded further by `f` (the one-hop-less
recursive expansion). -/
def addEach (f : String → List String → List String → List String × List String) :
    List String → List String → List String → List String × List String
  | [], included, visited => (included, visited)
  | d :: ds, included, visited =>
    let st :=
      if d ∈ included then (included, visited)
      else f d (included ++ [d]) visited
    addEach f ds st.1 st.2

/-- The recursive dependent expansion of `addDependents` in the server:
entry guard on `visited`, then (for a positive hop budget) a pass over the
reverse-adjacency list that adds each not-yet-included dependent and
recurses on it with one hop less.  The JS `hops < 0` guard cannot fire on
the `Nat`-valued budgets reaching this function. -/
def addDependents (rev : List (String × List String)) :
    Nat → String → List String → List String → List String × List String
  | hops, proj, included, visited =>
    if proj ∈ visited then (included, visited)
    else
      match hops with
      | 0 => (included, proj :: visited)
      | h + 1 =>
        addEach (fun d i v => addDependents rev h d i v)
          (lookupRev rev proj) included (proj :: visited)

/-- Function `computeIncluded` of the server (reference variant): an empty focus
selects the whole universe, otherwise each focused project is added and
expanded along the reverse adjacency up to the hop bound, with a fresh
`visited` set per seed. -/
def computeIncluded (rev : List (String × List String))
    (focusedProjects : List String) (downstreamHops : Nat) : List String :=
  if focusedProjects.length = 0 then allProjects
  else
    focusedProjects.foldl
      (fun included proj =>
        (addDependents rev downstreamHops proj (addSet included proj) []).1)
      []

/-! ### ManifestParser and GraphBuilder -/

/-- The literal part of the dependency directive pattern
`focusedDep(':project-` (single quote written by code point). -/
def depLit : List Char := "focusedDep(".toList ++ quoteChar :: ":project-".toList

/-- Scan of `matchAll(/focusedDep\(':project-(\d+)'/g)`: collect the digit
captures in textual order.  The scan advances one character at a time; this
agrees with `matchAll` (which jumps past each match) because one directive
cannot overlap another occurrence of the literal head. -/
def scanDeps : List Char → List (List Char)
  | [] => []
  | c :: rest =>
    if depLit.isPrefixOf (c :: rest) then
      let after := (c :: rest).drop depLit.length
      let digits := after.takeWhile Char.isDigit
      if digits ≠ [] ∧ (after.dropWhile Char.isDigit).head? = some quoteChar then
        digits :: scanDeps rest
      else scanDeps rest
    else scanDeps rest

/-- Dependency identifiers of one manifest:
`project-${String(match[1]).padStart(3, '0')}` per captured digit run. -/
def depTargets (content : String) : List String :=
  (scanDeps content.toList).map (fun d => "project-" ++ String.mk (padStart3 d))

/-- The forward adjacency `depMap` built over the fixed universe: a project
with a manifest gets its parsed dependency targets, a project without one
gets `[]`.  Manifest presence/contents are modelled by the association list
`manifests` (the filesystem). -/
def buildDepMap (manifests : List (String × String)) : List (String × List String) :=
  allProjects.map (fun proj =>
    (proj, match manifests.lookup proj with
           | some content => depTargets content
           | none => []))

/-- Push `reverseDepMap[dep].push(proj)`, creating the entry when absent. -/
def pushEntry (rev : List (String × List String)) (key v : String) :
    List (String × List String) :=
  if (rev.lookup key).isSome then
    rev.map (fun e => if e.1 = key then (e.1, e.2 ++ [v]) else e)
  else rev ++ [(key, [v])]

/-- The reverse adjacency `reverseDepMap`, built while iterating the
forward map in project order exactly as `buildGraph` does. -/
def buildRev (dm : List (String × List String)) : List (String × List String) :=
  dm.foldl (fun rev e => e.2.foldl (fun r d => pushEntry r d e.1) rev) []

/-- The `edges` array of `buildGraph`: one `(from, to)` pair per forward
adjacency entry. -/
def edgesOf (dm : List (String × List String)) : List (String × String) :=
  dm.flatMap (fun e => e.2.map (fun t => (e.1, t)))

/-! ### ConfigStore -/

/-- JS `\s` / `trim` whitespace (the ASCII part actually reachable here). -/
def isJsSpace (c : Char) : Bool :=
  c == ' ' || c == '\t' || c == '\n' || c == '\r' || c == Char.ofNat 11 || c == Char.ofNat 12

/-- Literal head of the focused-list statement. -/
def litFocused : List Char := "ext.focusedProjects".toList

/-- Literal head of the hop statement. -/
def litHops : List Char := "ext.downstreamHops".toList

/-- Attempt of `/ext\.focusedProjects\s*=\s*\[([^\]]*)\]/` at one position;
returns the bracketed capture.  The greedy `\s*`/`[^\]]*` parts are exact
`dropWhile`/`takeWhile` runs because the character after each is excluded
from the class. -/
def tryFocusedAt (s : List Char) : Option (List Char) :=
  if litFocused.isPrefixOf s then
    match (s.drop litFocused.length).dropWhile isJsSpace with
    | '=' :: r3 =>
      match r3.dropWhile isJsSpace with
      | '[' :: r5 =>
        if (r5.dropWhile (fun c => c != ']')).head? = some ']' then
          some (r5.takeWhile (fun c => c != ']'))
        else none
      | _ => none
    | _ => none
  else none

/-- Leftmost match of the focused-list pattern (`String.match` semantics). -/
def findFocused : List Char → Option (List Char)
  | [] => none
  | c :: rest =>
    match tryFocusedAt (c :: rest) with
    | some r => some r
    | none => findFocused rest

/-- Attempt of `/ext\.downstreamHops\s*=\s*(\d+)/` at one position. -/
def tryHopsAt (s : List Char) : Option (List Char) :=
  if litHops.isPrefixOf s then
    match (s.drop litHops.length).dropWhile isJsSpace with
    | '=' :: r3 =>
      let ds := (r3.dropWhile isJsSpace).takeWhile Char.isDigit
      if ds = [] then none else some ds
    | _ => none
  else none

/-- Leftmost match of the hop pattern. -/
def findHops : List Char → Option (List Char)
  | [] => none
  | c :: rest =>
    match tryHopsAt (c :: rest) with
    | some r => some r
    | none => findHops rest

/-- JS `String.prototype.trim`. -/
def trimJs (s : List Char) : List Char :=
  ((s.dropWhile isJsSpace).reverse.dropWhile isJsSpace).reverse

/-- First half of `replace(/^['"]|['"]$/g, '')`: one leading quote. -/
def stripQuote1 (s : List Char) : List Char :=
  match s with
  | c :: rest => if c = quoteChar ∨ c = '"' then rest else s
  | [] => []

/-- Second half of `replace(/^['"]|['"]$/g, '')`: one trailing quote of
what remains (the two alternatives of the pattern match at most once each). -/
def stripQuote2 (s : List Char) : List Char :=
  match s.getLast? with
  | some c => if c = quoteChar ∨ c = '"' then s.dropLast else s
  | none => s

/-- Model of `replace(/^['"]|['"]$/g, '')`. -/
def stripQuotes (s : List Char) : List Char := stripQuote2 (stripQuote1 s)

/-- JS `String.prototype.split(',')` (never returns an empty list). -/
def splitComma : List Char → List (List Char)
  | [] => [[]]
  | c :: rest =>
    if c = ',' then [] :: splitComma rest
    else
      match splitComma rest with
      | t :: ts => (c :: t) :: ts
      | [] => [[c]]

/-- Model of `listStr.split(',').map(s => s.trim().replace(/^['"]|['"]$/g, '')).filter(s => s)`. -/
def parseFocusedList (listStr : List Char) : List String :=
  (((splitComma listStr).map (fun s => stripQuotes (trimJs s))).filter
    (fun s => s ≠ [])).map String.mk

/-- The persisted focus selection.  `downstreamHops` is an integer so that
nonnegativity is a statement about `readConfig`, not about a type. -/
structure FocusConfig where
  focusedProjects : List String
  downstreamHops : Int
deriving DecidableEq, Repr

/-- Function `readConfig`: absent file gives the default config; otherwise the two
regex extractions with their fallbacks.  Total by construction. -/
def readConfig (file : Option String) : FocusConfig :=
  match file with
  | none => { focusedProjects := [], downstreamHops := 1 }
  | some content =>
    let focusedProjects :=
      match findFocused content.toList with
      | some listStr => parseFocusedList listStr
      | none => []
    let downstreamHops : Int :=
      match findHops content.toList with
      | some ds => (digitsVal ds : Int)
      | none => 1
    { focusedProjects := focusedProjects, downstreamHops := downstreamHops }

/-- JS template rendering `${n}` of an integer. -/
def intToString (n : Int) : String :=
  if n < 0 then "-" ++ String.mk (natToDigits (-n).toNat)
  else String.mk (natToDigits n.toNat)

/-- JS `Array.prototype.join(sep)`. -/
def joinJs (sep : List Char) : List (List Char) → List Char
  | [] => []
  | [x] => x
  | x :: y :: ys => x ++ sep ++ joinJs sep (y :: ys)

/-- Identifier `p` rendered as `'p'`. -/
def wrapQuote (p : String) : List Char := quoteChar :: p.toList ++ [quoteChar]

/-- Function `writeConfig`: the two-statement file
`ext.focusedProjects = [...]\next.downstreamHops = N`. -/
def writeConfig (focusedProjects : List String) (downstreamHops : Int) : String :=
  String.mk (litFocused ++ " = [".toList
    ++ joinJs ", ".toList (focusedProjects.map wrapQuote)
    ++ ']' :: '\n' :: (litHops ++ " = ".toList ++ (intToString downstreamHops).toList))

/-! ### ChangeWatcher -/

/-- The event payload handed to `io.emit('file-changes', …)`. -/
structure ChangePayload where
  changedProjects : List String
  included : List String
  excluded : List String
deriving DecidableEq, Repr

/-- Per-line parse of `git status --porcelain` output: keep
`line.substring(3)` when `line.substring(0, 2).trim()` is non-blank. -/
def currentChangesOf (statusLines : List String) : List String :=
  statusLines.foldl
    (fun acc line =>
      let cs := line.toList
      if trimJs (cs.take 2) ≠ [] then addSet acc (String.mk (cs.drop 3)) else acc)
    []

/-- Model of `[...currentChanges].filter(change => !lastKnownChanges.has(change))`. -/
def newChangesOf (lastKnown current : List String) : List String :=
  current.filter (fun c => c ∉ lastKnown)

/-- Model of `change.match(/^project-\d+/)`, returning `match[0]`. -/
def projectPrefixOf (s : String) : Option String :=
  let cs := s.toList
  if ("project-".toList).isPrefixOf cs then
    let ds := (cs.drop 8).takeWhile Char.isDigit
    if ds = [] then none else some (String.mk ("project-".toList ++ ds))
  else none

/-- The `changedProjects` set of one tick. -/
def changedProjectsOf (newChanges : List String) : List String :=
  newChanges.foldl
    (fun acc change =>
      match projectPrefixOf change with
      | some p => addSet acc p
      | none => acc)
    []

/-- One successful tick of `checkGitChanges`, given the status lines the
git query produced (after the split/blank-line filter), the current config
(the tick reads it via `readConfig`) and the reverse adjacency.  Returns
the published payload, if any, and the new `lastKnownChanges`. -/
def checkGitChanges (rev : List (String × List String)) (config : FocusConfig)
    (lastKnown : List String) (statusLines : List String) :
    Option ChangePayload × List String :=
  let currentChanges := currentChangesOf statusLines
  let newChanges := newChangesOf lastKnown currentChanges
  if newChanges.length > 0 then
    let included := computeIncluded rev config.focusedProjects config.downstreamHops.toNat
    let excluded := allProjects.filter (fun p => p ∉ included)
    let changedProjects := changedProjectsOf newChanges
    let nonFocusedChanged := changedProjects.filter (fun proj => proj ∉ config.focusedProjects)
    if nonFocusedChanged.length > 0 then
      (some ⟨nonFocusedChanged, included, excluded⟩, currentChanges)
    else (none, currentChanges)
  else (none, currentChanges)

/-- The single-quote character as a one-character string. -/
def quoteStr : String := String.mk [quoteChar]

/-- A manifest line `focusedDep(':project-NNN')`. -/
def depDirective (s : String) : String :=
  "focusedDep(" ++ quoteStr ++ ":project-" ++ s ++ quoteStr ++ ")"

/-! ### Helper lemmas -/

theorem mem_addSet {l : List String} {x y : String} :
    x ∈ addSet l y ↔ x ∈ l ∨ x = y := by
  by_cases h : y ∈ l
  · simp only [addSet, if_pos h]
    exact ⟨Or.inl, fun hx => hx.elim id (fun hxy => hxy ▸ h)⟩
  · simp [addSet, h]

theorem mem_allProjects {p : String} :
    p ∈ allProjects ↔ ∃ n, 1 ≤ n ∧ n ≤ 100 ∧ p = projectId n := by
  simp only [allProjects, List.mem_map, List.mem_range]
  constructor
  · rintro ⟨i, hi, rfl⟩
    exact ⟨i + 1, by omega, by omega, rfl⟩
  · rintro ⟨n, h1, h2, rfl⟩
    exact ⟨n - 1, by omega, by congr 1; omega⟩

theorem addDependents_zero (rev : List (String × List String)) (proj : String)
    (included visited : List String) :
    (addDependents rev 0 proj included visited).1 = included := by
  rw [addDependents]
  split <;> rfl

theorem mem_foldl_addSet (F : List String) (acc : List String) (x : String) :
    x ∈ F.foldl addSet acc ↔ x ∈ acc ∨ x ∈ F := by
  induction F generalizing acc with
  | nil => simp
  | cons a F ih =>
    rw [List.foldl_cons, ih]
    rw [mem_addSet]
    simp only [List.mem_cons]
    tauto

/-! ### Claim C3 -/

/-- Claim C3: for every graph and every hop bound, `computeIncluded` on the
empty focused set returns the full universe `project-001 … project-100`
(the reference "no focus = everything" policy of the socket-enabled
server). -/
theorem computeIncluded_empty_focus_universe
    (rev : List (String × List String)) (h : Nat) (p : String) :
    p ∈ computeIncluded rev [] h ↔ ∃ n, 1 ≤ n ∧ n ≤ 100 ∧ p = projectId n := by
  rw [computeIncluded]
  simp only [List.length_nil, if_pos rfl]
  exact mem_allProjects

/-! ### Claim C4 -/

/-- Claim C4 (counterexample): with the empty focused set and hop bound 0,
`computeIncluded` does not return the focused set: the result contains
`project-001` while the focused set is empty. -/
theorem computeIncluded_zero_hops_empty_focus_cex :
    "project-001" ∈ computeIncluded [] [] 0 ∧ "project-001" ∉ ([] : List String) := by
  refine ⟨?_, by simp⟩
  decide

/-- Claim C4 (amended): for every graph and every *non-empty* focused set,
`computeIncluded` with hop bound 0 returns exactly the focused set (as a
set): no expansion along the reverse adjacency occurs. -/
theorem computeIncluded_zero_hops_nonempty
    (rev : List (String × List String)) (F : List String) (hF : F ≠ [])
    (p : String) : p ∈ computeIncluded rev F 0 ↔ p ∈ F := by
  rw [computeIncluded]
  rw [if_neg (by simpa [List.length_eq_zero] using hF)]
  have hfold : ∀ (acc : List String),
      F.foldl (fun included proj =>
        (addDependents rev 0 proj (addSet included proj) []).1) acc =
      F.foldl addSet acc := by
    intro acc
    induction F generalizing acc with
    | nil => rfl
    | cons a F ih => simp [List.foldl_cons, addDependents_zero, ih]
  rw [hfold, mem_foldl_addSet]
  simp

/-- Claim C4 witness: concrete instance of the amended statement. -/
theorem computeIncluded_zero_hops_witness :
    (["project-001"] : List String) ≠ [] ∧
    ("project-001" ∈ computeIncluded [] ["project-001"] 0 ↔
      "project-001" ∈ (["project-001"] : List String)) :=
  ⟨by decide, computeIncluded_zero_hops_nonempty [] ["project-001"] (by decide) _⟩

/-! ### Claims C1 and C2: the expansion bug -/

/-- Manifests realizing reverse adjacency
`004 ↦ [001, 002]`, `001 ↦ [002]`, `002 ↦ [003]`. -/
def c1manifests : List (String × String) :=
  [("project-001", depDirective "004"),
   ("project-002", depDirective "004" ++ " " ++ depDirective "001"),
   ("project-003", depDirective "002")]

/-- The reverse adjacency the server builds from `c1manifests`. -/
def c1rev : List (String × List String) := buildRev (buildDepMap c1manifests)

/-- Claim C1 (code bug): with focus `{project-004}` and hop bound 2,
`project-003` lies exactly two reverse edges from the seed
(`004 → 002 → 003` in the reverse adjacency) yet is missing from the
result: the depth-first expansion reaches `project-002` first through the
longer path `004 → 001 → 002` with its budget exhausted, and the
`included` guard then blocks re-expansion of `project-002` at the larger
remaining budget. -/
theorem computeIncluded_omits_project_within_hops :
    lookupRev c1rev "project-004" = ["project-001", "project-002"] ∧
    lookupRev c1rev "project-002" = ["project-003"] ∧
    computeIncluded c1rev ["project-004"] 2 =
      ["project-004", "project-001", "project-002"] ∧
    "project-003" ∉ computeIncluded c1rev ["project-004"] 2 := by
  refine ⟨by decide, by decide, by decide, by decide⟩

/-- Manifests realizing reverse adjacency
`002 ↦ [005]`, `003 ↦ [002, 004]`, `004 ↦ [001]`, `005 ↦ [004]`. -/
def c2manifests : List (String × String) :=
  [("project-001", depDirective "004"),
   ("project-002", depDirective "003"),
   ("project-004", depDirective "003" ++ " " ++ depDirective "005"),
   ("project-005", depDirective "002")]

/-- The reverse adjacency the server builds from `c2manifests`. -/
def c2rev : List (String × List String) := buildRev (buildDepMap c2manifests)

/-- Claim C2 (code bug): the included set is not monotone in the hop
bound: with focus `{project-003}`, `project-001` is included at hop bound
2 but *not* at hop bound 3 (at the larger budget the depth-first walk
reaches `project-004` through `003 → 002 → 005 → 004` with no budget
left, and the direct expansion `003 → 004 → 001` is then blocked by the
`included` guard). -/
theorem computeIncluded_not_monotone :
    "project-001" ∈ computeIncluded c2rev ["project-003"] 2 ∧
    "project-001" ∉ computeIncluded c2rev ["project-003"] 3 := by
  refine ⟨by decide, by decide⟩

/-! ### Claim C10 -/

/-- Claim C10: every config returned by `readConfig` has a nonnegative
hop bound — only a plain digit run is accepted by the hop pattern — and a
hand-edited file with a negative hop value loads as the default 1. -/
theorem readConfig_hops_nonneg :
    (∀ file, 0 ≤ (readConfig file).downstreamHops) ∧
    (readConfig (some "ext.downstreamHops = -5")).downstreamHops = 1 := by
  constructor
  · intro file
    match file with
    | none => decide
    | some content =>
      rw [readConfig]
      cases h : findHops content.toList <;> simp [h]
  · decide

/-! ### Claim C8 -/

/-- Claim C8: `readConfig` is total with the documented defaults: an
absent file yields the default config (empty focus, hop bound 1); a
missing/unmatched focused-list literal yields an empty focused set; a
missing/unmatched hop literal yields hop bound 1. -/
theorem readConfig_defaults :
    readConfig none = ⟨[], 1⟩ ∧
    (∀ content, findFocused content.toList = none →
      (readConfig (some content)).focusedProjects = []) ∧
    (∀ content, findHops content.toList = none →
      (readConfig (some content)).downstreamHops = 1) := by
  refine ⟨rfl, ?_, ?_⟩
  · intro content h
    have h' : findFocused content.data = none := h
    simp [readConfig, h']
  · intro content h
    have h' : findHops content.data = none := h
    simp [readConfig, h']

/-- Claim C8 witness: the defaults on an absent file and on a file whose
content matches neither literal. -/
theorem readConfig_defaults_witness :
    readConfig none = ⟨[], 1⟩ ∧
    (readConfig (some "plain text")).focusedProjects = [] ∧
    (readConfig (some "plain text")).downstreamHops = 1 :=
  ⟨readConfig_defaults.1,
   readConfig_defaults.2.1 "plain text" (by decide),
   readConfig_defaults.2.2 "plain text" (by decide)⟩

/-! ### Claim C6 -/

theorem lookup_mem {α β : Type} [BEq α] [LawfulBEq α] {l : List (α × β)} {k : α} {v : β}
    (h : l.lookup k = some v) : (k, v) ∈ l := by
  induction l with
  | nil => simp [List.lookup] at h
  | cons e l ih =>
    rw [List.lookup] at h
    cases hk : k == e.1
    · simp only [hk] at h
      exact List.mem_cons_of_mem _ (ih h)
    · simp only [hk] at h
      cases h
      have : k = e.1 := by simpa using hk
      rw [this]
      exact List.mem_cons_self _ _

/-- Entries of the forward map are in the universe (key side always, value
side under the hypothesis that every directive names a registry project). -/
theorem buildDepMap_entries (manifests : List (String × String))
    (hm : ∀ pc ∈ manifests, ∀ d ∈ scanDeps (Prod.snd pc).toList,
      ("project-" ++ String.mk (padStart3 d)) ∈ allProjects) :
    ∀ e ∈ buildDepMap manifests, e.1 ∈ allProjects ∧ ∀ v ∈ e.2, v ∈ allProjects := by
  intro e he
  rw [buildDepMap, List.mem_map] at he
  obtain ⟨proj, hproj, rfl⟩ := he
  refine ⟨hproj, ?_⟩
  intro v hv
  dsimp only at hv
  cases hlk : manifests.lookup proj with
  | none => rw [hlk] at hv; simp at hv
  | some content =>
    rw [hlk] at hv
    simp only [depTargets, List.mem_map] at hv
    obtain ⟨d, hd, rfl⟩ := hv
    exact hm (proj, content) (lookup_mem hlk) d hd

theorem pushEntry_entries (rev : List (String × List String)) (key v : String)
    (hrev : ∀ e ∈ rev, e.1 ∈ allProjects ∧ ∀ w ∈ e.2, w ∈ allProjects)
    (hkey : key ∈ allProjects) (hv : v ∈ allProjects) :
    ∀ e ∈ pushEntry rev key v, e.1 ∈ allProjects ∧ ∀ w ∈ e.2, w ∈ allProjects := by
  intro e he
  rw [pushEntry] at he
  split at he
  · rw [List.mem_map] at he
    obtain ⟨a, ha, rfl⟩ := he
    by_cases hk : a.1 = key
    · rw [if_pos hk]
      refine ⟨(hrev a ha).1, ?_⟩
      intro w hw
      rw [List.mem_append] at hw
      rcases hw with hw | hw
      · exact (hrev a ha).2 w hw
      · rw [List.mem_singleton] at hw
        exact hw ▸ hv
    · rw [if_neg hk]
      exact hrev a ha
  · rw [List.mem_append] at he
    rcases he with he | he
    · exact hrev e he
    · rw [List.mem_singleton] at he
      subst he
      exact ⟨hkey, fun w hw => by rw [List.mem_singleton] at hw; exact hw ▸ hv⟩

theorem buildRev_entries (dm : List (String × List String))
    (hdm : ∀ e ∈ dm, e.1 ∈ allProjects ∧ ∀ v ∈ e.2, v ∈ allProjects) :
    ∀ e ∈ buildRev dm, e.1 ∈ allProjects ∧ ∀ v ∈ e.2, v ∈ allProjects := by
  rw [buildRev]
  have main : ∀ (l : List (String × List String)) (acc : List (String × List String)),
      (∀ e ∈ l, e.1 ∈ allProjects ∧ ∀ v ∈ e.2, v ∈ allProjects) →
      (∀ e ∈ acc, e.1 ∈ allProjects ∧ ∀ v ∈ e.2, v ∈ allProjects) →
      ∀ e ∈ l.foldl (fun rev e => e.2.foldl (fun r d => pushEntry r d e.1) rev) acc,
        e.1 ∈ allProjects ∧ ∀ v ∈ e.2, v ∈ allProjects := by
    intro l
    induction l with
    | nil => intro acc _ hacc; exact hacc
    | cons a l ih =>
      intro acc hl hacc
      rw [List.foldl_cons]
      refine ih _ (fun e he => hl e (List.mem_cons_of_mem _ he)) ?_
      have ha := hl a (List.mem_cons_self _ _)
      have inner : ∀ (ds : List String) (acc' : List (String × List String)),
          (∀ d ∈ ds, d ∈ allProjects) →
          (∀ e ∈ acc', e.1 ∈ allProjects ∧ ∀ v ∈ e.2, v ∈ allProjects) →
          ∀ e ∈ ds.foldl (fun r d => pushEntry r d a.1) acc',
            e.1 ∈ allProjects ∧ ∀ v ∈ e.2, v ∈ allProjects := by
        intro ds
        induction ds with
        | nil => intro acc' _ hacc'; exact hacc'
        | cons d ds ihd =>
          intro acc' hds hacc'
          rw [List.foldl_cons]
          refine ihd _ (fun x hx => hds x (List.mem_cons_of_mem _ hx)) ?_
          exact pushEntry_entries acc' d a.1 hacc' (hds d (List.mem_cons_self _ _)) ha.1
      exact inner a.2 acc ha.2 hacc
  exact main dm [] hdm (by simp)

/-- Claim C6 (counterexample): a manifest directive naming `project-999`
produces an edge whose `to` endpoint is outside the 100-project universe. -/
theorem buildGraph_edge_outside_universe_cex :
    ("project-001", "project-999") ∈
      edgesOf (buildDepMap [("project-001", depDirective "999")]) ∧
    "project-999" ∉ allProjects := by
  refine ⟨by decide, by decide⟩

/-- Claim C6 (amended): for every filesystem, unconditionally, a project
with no manifest file gets an empty forward adjacency rather than an
error; and provided every dependency directive of every manifest names a
registry project, every identifier in a forward or reverse adjacency
entry (and hence in every edge) belongs to the universe. -/
theorem buildGraph_edges_universe (manifests : List (String × String)) :
    (∀ proj ∈ allProjects, manifests.lookup proj = none →
      (proj, ([] : List String)) ∈ buildDepMap manifests) ∧
    ((∀ pc ∈ manifests, ∀ d ∈ scanDeps (Prod.snd pc).toList,
        ("project-" ++ String.mk (padStart3 d)) ∈ allProjects) →
      (∀ e ∈ edgesOf (buildDepMap manifests),
        e.1 ∈ allProjects ∧ e.2 ∈ allProjects) ∧
      (∀ e ∈ buildRev (buildDepMap manifests),
        e.1 ∈ allProjects ∧ ∀ v ∈ e.2, v ∈ allProjects)) := by
  constructor
  · intro proj hproj hnone
    rw [buildDepMap, List.mem_map]
    refine ⟨proj, hproj, ?_⟩
    rw [hnone]
  · intro hm
    have hdm := buildDepMap_entries manifests hm
    refine ⟨?_, buildRev_entries _ hdm⟩
    intro e he
    rw [edgesOf, List.mem_flatMap] at he
    obtain ⟨a, ha, he⟩ := he
    rw [List.mem_map] at he
    obtain ⟨t, ht, rfl⟩ := he
    exact ⟨(hdm a ha).1, (hdm a ha).2 t ht⟩

/-- Claim C6 witness: in a one-manifest filesystem, the manifest-less
`project-002` gets an empty forward adjacency, and the well-formed edge's
endpoints are in the universe. -/
theorem buildGraph_edges_universe_witness :
    (("project-002", ([] : List String)) ∈
      buildDepMap [("project-001", depDirective "002")]) ∧
    ("project-001" ∈ allProjects ∧ "project-002" ∈ allProjects) :=
  ⟨(buildGraph_edges_universe [("project-001", depDirective "002")]).1
     "project-002" (by decide) (by decide),
   ((buildGraph_edges_universe [("project-001", depDirective "002")]).2
     (by decide)).1 ("project-001", "project-002") (by decide)⟩

/-! ### Claims C7 and C9: the watcher tick -/

/-- Whether a dirty path's owning project (if any) is focused. -/
def mapsToFocused (focused : List String) (path : String) : Bool :=
  match projectPrefixOf path with
  | some p => focused.contains p
  | none => true

theorem mem_changedProjectsOf {l : List String} {x : String} :
    x ∈ changedProjectsOf l ↔ ∃ c ∈ l, projectPrefixOf c = some x := by
  have aux : ∀ (l : List String) (acc : List String),
      x ∈ l.foldl (fun acc change =>
        match projectPrefixOf change with
        | some p => addSet acc p
        | none => acc) acc ↔
      x ∈ acc ∨ ∃ c ∈ l, projectPrefixOf c = some x := by
    intro l
    induction l with
    | nil => simp
    | cons c l ih =>
      intro acc
      rw [List.foldl_cons]
      cases hc : projectPrefixOf c with
      | none => simp only [ih, List.mem_cons]; aesop
      | some p => simp only [ih, mem_addSet, List.mem_cons]; aesop
  exact (aux l []).trans (by simp)

/-- Claim C9: when a tick publishes a payload, its `changedProjects` field
holds exactly the projects of newly dirty paths that are not focused; in
particular a newly dirty focused project is omitted even when it got dirty
on the same tick as a non-focused change. -/
theorem checkGitChanges_payload_iff (rev : List (String × List String))
    (cfg : FocusConfig) (lastKnown statusLines : List String)
    (payload : ChangePayload)
    (h : (checkGitChanges rev cfg lastKnown statusLines).1 = some payload)
    (p : String) :
    p ∈ payload.changedProjects ↔
      p ∉ cfg.focusedProjects ∧
      ∃ c ∈ newChangesOf lastKnown (currentChangesOf statusLines),
        projectPrefixOf c = some p := by
  rw [checkGitChanges] at h
  simp only at h
  split at h
  · split at h
    · cases h
      simp only [List.mem_filter, mem_changedProjectsOf, decide_eq_true_eq]
      tauto
    · cases h
  · cases h

/-- Concrete tick for the C9 witness: one focused and one non-focused
project become dirty on the same tick. -/
def c9cfg : FocusConfig := ⟨["project-001"], 1⟩

/-- Status lines of the C9 witness tick. -/
def c9lines : List String := [" M project-001/a.txt", " M project-002/b.txt"]

/-- The payload the C9 witness tick publishes. -/
def c9payload : ChangePayload :=
  ((checkGitChanges [] c9cfg [] c9lines).1).getD ⟨[], [], []⟩

/-- Claim C9 witness: in the concrete tick, `project-002` is reported and
is a newly changed non-focused project (and, per the theorem's iff,
`project-001` — focused, dirty on the same tick — is not reported). -/
theorem checkGitChanges_payload_witness :
    "project-002" ∈ c9payload.changedProjects ∧
    ("project-002" ∉ c9cfg.focusedProjects ∧
      ∃ c ∈ newChangesOf [] (currentChangesOf c9lines),
        projectPrefixOf c = some "project-002") :=
  ⟨by decide,
   (checkGitChanges_payload_iff [] c9cfg [] c9lines c9payload (by decide)
     "project-002").mp (by decide)⟩

/-- Reverse adjacency of the C7 counterexample: `project-001` depends on
`project-002`. -/
def c7rev : List (String × List String) := [("project-002", ["project-001"])]

/-- Config of the C7 counterexample: focus `{project-002}`, one hop. -/
def c7cfg : FocusConfig := ⟨["project-002"], 1⟩

/-- Status lines of the C7 counterexample tick. -/
def c7lines : List String := [" M project-001/x.txt"]

/-- Claim C7 (counterexample): on a tick where every newly dirty path maps
to a project *inside* the included set (`project-001` is included as a
one-hop dependent of the focused `project-002`), a notification is still
published — the tick filters against the focused set, not the included
set. -/
theorem checkGitChanges_included_notifies_cex :
    "project-001" ∈
      computeIncluded c7rev c7cfg.focusedProjects c7cfg.downstreamHops.toNat ∧
    (∀ c ∈ newChangesOf [] (currentChangesOf c7lines),
      projectPrefixOf c = some "project-001") ∧
    (checkGitChanges c7rev c7cfg [] c7lines).1 ≠ none := by
  refine ⟨by decide, by decide, by decide⟩

/-- Claim C7 (amended): the tick is silent whenever every newly dirty
path maps to a project of the *focused* set (paths owned by no project
never block silence). -/
theorem checkGitChanges_focused_only_silent (rev : List (String × List String))
    (cfg : FocusConfig) (lastKnown statusLines : List String)
    (h : ∀ c ∈ newChangesOf lastKnown (currentChangesOf statusLines),
      mapsToFocused cfg.focusedProjects c = true) :
    (checkGitChanges rev cfg lastKnown statusLines).1 = none := by
  rw [checkGitChanges]
  simp only
  split
  · rw [if_neg]
    intro hlen
    have hnil : (changedProjectsOf
        (newChangesOf lastKnown (currentChangesOf statusLines))).filter
        (fun proj => decide (proj ∉ cfg.focusedProjects)) = [] := by
      rw [List.filter_eq_nil_iff]
      intro p hp
      rw [mem_changedProjectsOf] at hp
      obtain ⟨c, hc, hpc⟩ := hp
      have hf := h c hc
      rw [mapsToFocused, hpc] at hf
      have hpm : p ∈ cfg.focusedProjects := by
        simpa [List.contains, List.elem_iff] using hf
      simp [hpm]
    rw [hnil] at hlen
    simp at hlen
  · rfl

/-- Claim C7 witness: a tick whose only newly dirty path belongs to a
focused project is silent. -/
theorem checkGitChanges_focused_only_witness :
    (checkGitChanges [] (⟨["project-001"], 1⟩ : FocusConfig) []
      [" M project-001/x.txt"]).1 = none :=
  checkGitChanges_focused_only_silent [] ⟨["project-001"], 1⟩ []
    [" M project-001/x.txt"] (by decide)

/-! ### Claim C5: string surgery toolbox -/

/-- Occurrence of `t` as a contiguous run inside `s`. -/
def hasSub (t s : List Char) : Prop := ∃ a b, s = a ++ t ++ b

/-- Executable occurrence check, for decidable hypotheses. -/
def containsList (t : List Char) : List Char → Bool
  | [] => t.isEmpty
  | c :: rest => t.isPrefixOf (c :: rest) || containsList t rest

theorem prefixOf_exists (t : List Char) :
    ∀ u : List Char, t.isPrefixOf u = true ↔ ∃ r, u = t ++ r := by
  induction t with
  | nil => intro u; simp [List.isPrefixOf]
  | cons a t ih =>
    intro u
    cases u with
    | nil => simp [List.isPrefixOf]
    | cons b u =>
      rw [List.isPrefixOf, Bool.and_eq_true, beq_iff_eq]
      constructor
      · rintro ⟨rfl, h⟩
        obtain ⟨r, rfl⟩ := (ih u).mp h
        exact ⟨r, rfl⟩
      · rintro ⟨r, hr⟩
        rw [List.cons_append] at hr
        injection hr with h1 h2
        exact ⟨h1.symm, (ih u).mpr ⟨r, h2⟩⟩

theorem containsList_spec (t : List Char) :
    ∀ s : List Char, containsList t s = true ↔ hasSub t s := by
  intro s
  induction s with
  | nil =>
    rw [containsList]
    simp only [List.isEmpty_iff, hasSub]
    constructor
    · rintro rfl; exact ⟨[], [], rfl⟩
    · rintro ⟨a, b, hab⟩
      rcases List.append_eq_nil.mp (List.append_eq_nil.mp hab.symm).1 with ⟨-, h2⟩
      exact h2
  | cons c rest ih =>
    rw [containsList, Bool.or_eq_true, prefixOf_exists, ih]
    constructor
    · rintro (⟨r, hr⟩ | ⟨a, b, rfl⟩)
      · exact ⟨[], r, by simpa using hr⟩
      · exact ⟨c :: a, b, rfl⟩
    · rintro ⟨a, b, hab⟩
      cases a with
      | nil => exact Or.inl ⟨b, by simpa using hab⟩
      | cons x a' =>
        rw [List.cons_append, List.cons_append] at hab
        injection hab with h1 h2
        exact Or.inr ⟨a', b, h2⟩

theorem not_hasSub_nil {t : List Char} (ht : t ≠ []) : ¬ hasSub t [] := by
  rintro ⟨a, b, hab⟩
  rcases List.append_eq_nil.mp (List.append_eq_nil.mp hab.symm).1 with ⟨-, h2⟩
  exact ht h2

/-- If `t ++ b` continues as `zs ++ q :: ys` and `q ∉ t`, then `t` stays
within `zs`. -/
theorem prefixFree {t : List Char} (b zs ys : List Char) {q : Char} (hq : q ∉ t)
    (h : t ++ b = zs ++ q :: ys) : ∃ r, zs = t ++ r := by
  induction t generalizing zs with
  | nil => exact ⟨zs, rfl⟩
  | cons c t ih =>
    cases zs with
    | nil =>
      rw [List.cons_append, List.nil_append] at h
      injection h with h1 h2
      subst h1
      exact absurd (List.mem_cons_self _ _) hq
    | cons z zs' =>
      rw [List.cons_append, List.cons_append] at h
      injection h with h1 h2
      obtain ⟨r, hr⟩ := ih zs' (fun hm => hq (List.mem_cons_of_mem _ hm)) h2
      exact ⟨r, by rw [hr, h1, List.cons_append]⟩

/-- A run with no `q` cannot straddle a `q` barrier. -/
theorem sandwichFree {t : List Char} (xs ys : List Char) {q : Char} (hq : q ∉ t)
    (hxs : ¬ hasSub t xs) (hys : ¬ hasSub t ys) : ¬ hasSub t (xs ++ q :: ys) := by
  rintro ⟨a, b, hab⟩
  rcases List.append_eq_append_iff.mp hab.symm with ⟨w, hw1, hw2⟩ | ⟨w, hw1, hw2⟩
  · exact hxs ⟨a, w, by rw [hw1, List.append_assoc]⟩
  · cases w with
    | nil =>
      rw [List.append_nil] at hw1
      exact hxs ⟨a, [], by rw [← hw1, List.append_nil]⟩
    | cons q' w' =>
      rw [List.cons_append] at hw2
      injection hw2 with h1 h2
      rcases List.append_eq_append_iff.mp hw1 with ⟨v, hv1, hv2⟩ | ⟨v, hv1, hv2⟩
      · exact hq (hv2 ▸ List.mem_append_right v (h1 ▸ List.mem_cons_self _ _))
      · cases v with
        | nil =>
          rw [List.nil_append] at hv2
          exact hq (hv2.symm ▸ (h1 ▸ List.mem_cons_self q' w'))
        | cons q'' v' =>
          rw [List.cons_append] at hv2
          injection hv2 with h3 h4
          exact hys ⟨v', b, by rw [h2, h4, List.append_assoc]⟩

theorem hasSub_of_tail {t l : List Char} (x : Char) (h : hasSub t l) :
    hasSub t (x :: l) := by
  obtain ⟨a, b, rfl⟩ := h
  exact ⟨x :: a, b, rfl⟩

/-! ### Claim C5: decimal digit lemmas -/

theorem natToDigitsAux_shape (fuel : Nat) :
    ∀ n, n < fuel → ∀ c ∈ natToDigitsAux fuel n, ∃ d, d < 10 ∧ c = digitChar d := by
  induction fuel with
  | zero => intro n hn; omega
  | succ fuel ih =>
    intro n hn c hc
    rw [natToDigitsAux] at hc
    by_cases h10 : n < 10
    · rw [if_pos h10] at hc
      rw [List.mem_singleton] at hc
      exact ⟨n, h10, hc⟩
    · rw [if_neg h10] at hc
      rcases List.mem_append.mp hc with hc | hc
      · have hdiv : n / 10 < n := Nat.div_lt_self (by omega) (by omega)
        exact ih (n / 10) (by omega) c hc
      · rw [List.mem_singleton] at hc
        exact ⟨n % 10, Nat.mod_lt _ (by omega), hc⟩

theorem natToDigits_shape (n : Nat) :
    ∀ c ∈ natToDigits n, ∃ d, d < 10 ∧ c = digitChar d :=
  natToDigitsAux_shape (n + 1) n (by omega)

theorem natToDigitsAux_ne_nil (fuel : Nat) :
    ∀ n, n < fuel → natToDigitsAux fuel n ≠ [] := by
  induction fuel with
  | zero => intro n hn; omega
  | succ fuel ih =>
    intro n hn
    rw [natToDigitsAux]
    by_cases h10 : n < 10
    · rw [if_pos h10]; simp
    · rw [if_neg h10]; simp

theorem natToDigits_ne_nil (n : Nat) : natToDigits n ≠ [] :=
  natToDigitsAux_ne_nil (n + 1) n (by omega)

theorem digitChar_toNat {d : Nat} (h : d < 10) : (digitChar d).toNat = 48 + d := by
  interval_cases d <;> decide

theorem isJsSpace_digitChar {d : Nat} (h : d < 10) : isJsSpace (digitChar d) = false := by
  interval_cases d <;> decide

theorem isDigit_digitChar {d : Nat} (h : d < 10) : (digitChar d).isDigit = true := by
  interval_cases d <;> decide

theorem digitsVal_append_singleton (l : List Char) (c : Char) :
    digitsVal (l ++ [c]) = digitsVal l * 10 + (c.toNat - 48) := by
  simp [digitsVal, List.foldl_append]

theorem digitsVal_natToDigitsAux (fuel : Nat) :
    ∀ n, n < fuel → digitsVal (natToDigitsAux fuel n) = n := by
  induction fuel with
  | zero => intro n hn; omega
  | succ fuel ih =>
    intro n hn
    rw [natToDigitsAux]
    by_cases h10 : n < 10
    · rw [if_pos h10]
      simp [digitsVal, digitChar_toNat h10]
    · rw [if_neg h10]
      have hdiv : n / 10 < n := Nat.div_lt_self (by omega) (by omega)
      rw [digitsVal_append_singleton, ih (n / 10) (by omega),
        digitChar_toNat (Nat.mod_lt _ (by omega))]
      omega

theorem digitsVal_natToDigits (n : Nat) : digitsVal (natToDigits n) = n :=
  digitsVal_natToDigitsAux (n + 1) n (by omega)

/-! ### Claim C5: the two regions of a written config file -/

/-- Everything before the closing bracket of the focused-list statement. -/
def pre0Chars (ids : List String) : List Char :=
  litFocused ++ " = [".toList ++ joinJs ", ".toList (ids.map wrapQuote)

/-- The part of a written config before the hop statement. -/
def preChars (ids : List String) : List Char := pre0Chars ids ++ [']', '\n']

/-- The hop statement of a written config. -/
def tailChars (n : Nat) : List Char := litHops ++ " = ".toList ++ natToDigits n

theorem writeConfig_toList (ids : List String) (n : Nat) :
    (writeConfig ids (n : Int)).toList = preChars ids ++ tailChars n := by
  have hneg : ¬ ((n : Int) < 0) := Int.not_lt.mpr (Int.natCast_nonneg n)
  simp only [writeConfig, intToString, if_neg hneg, Int.toNat_ofNat]
  show _ = _
  simp [preChars, pre0Chars, tailChars, List.append_assoc]

theorem not_hasSub_of_containsList {t s : List Char}
    (h : containsList t s = false) : ¬ hasSub t s := by
  intro hsub
  have h1 := (containsList_spec t s).mpr hsub
  rw [h] at h1
  cases h1

theorem not_hasSub_wrap (t : List Char) (id : String) (hq : quoteChar ∉ t)
    (ht : t ≠ []) (hid : ¬ hasSub t id.toList) : ¬ hasSub t (wrapQuote id) := by
  have inner : ¬ hasSub t (id.toList ++ [quoteChar]) :=
    sandwichFree id.toList [] hq hid (not_hasSub_nil ht)
  have outer := sandwichFree [] (id.toList ++ [quoteChar]) hq (not_hasSub_nil ht) inner
  simpa [wrapQuote] using outer

theorem not_hasSub_join (t : List Char) (hq : quoteChar ∉ t) (hcomma : ',' ∉ t)
    (hspace : ' ' ∉ t) (ht : t ≠ []) :
    ∀ ids : List String, (∀ id ∈ ids, ¬ hasSub t id.toList) →
      ¬ hasSub t (joinJs ", ".toList (ids.map wrapQuote))
  | [], _ => by
    rw [List.map_nil, joinJs]
    exact not_hasSub_nil ht
  | [x], h => by
    rw [List.map_cons, List.map_nil, joinJs]
    exact not_hasSub_wrap t x hq ht (h x (by simp))
  | x :: y :: ys, h => by
    rw [List.map_cons, List.map_cons, joinJs]
    have hj := not_hasSub_join t hq hcomma hspace ht (y :: ys)
      (fun id hid => h id (List.mem_cons_of_mem _ hid))
    rw [List.map_cons] at hj
    have hrest : ¬ hasSub t
        (' ' :: joinJs ", ".toList (wrapQuote y :: ys.map wrapQuote)) := by
      have := sandwichFree []
        (joinJs ", ".toList (wrapQuote y :: ys.map wrapQuote)) hspace
        (not_hasSub_nil ht) hj
      simpa using this
    have hx := not_hasSub_wrap t x hq ht (h x (by simp))
    have := sandwichFree (wrapQuote x)
      (' ' :: joinJs ", ".toList (wrapQuote y :: ys.map wrapQuote)) hcomma hx hrest
    simpa [List.append_assoc] using this

theorem not_hasSub_pre0 (ids : List String)
    (h : ∀ id ∈ ids, ¬ hasSub litHops id.toList) :
    ¬ hasSub litHops (pre0Chars ids) := by
  have hjoin := not_hasSub_join litHops (by decide) (by decide) (by decide)
    (by decide) ids h
  have hseg : ¬ hasSub litHops ("ext.focusedProjects = ".toList) :=
    not_hasSub_of_containsList (by decide)
  have hsplit := sandwichFree (t := litHops) ("ext.focusedProjects = ".toList)
    (joinJs ", ".toList (ids.map wrapQuote)) (q := '[') (by decide) hseg hjoin
  have hshape : pre0Chars ids =
      "ext.focusedProjects = ".toList ++
        '[' :: joinJs ", ".toList (ids.map wrapQuote) := by
    have e1 : ("ext.focusedProjects = " : String).toList =
        litFocused ++ [' ', '=', ' '] := by decide
    have e2 : (" = [" : String).toList = [' ', '=', ' ', '['] := by decide
    rw [pre0Chars, e1, e2]
    simp [List.append_assoc]
  rw [hshape]
  exact hsplit

/-! ### Claim C5: the hop pattern matches only the hop statement -/

theorem litHops_head : litHops = 'e' :: "xt.downstreamHops".toList := by decide

theorem tryHopsAt_none_of_not_prefixOf {s : List Char}
    (h : litHops.isPrefixOf s = false) : tryHopsAt s = none := by
  rw [tryHopsAt, h]
  rfl

theorem isPrefixOf_false_of_head {c : Char} (r : List Char) (hc : c ≠ 'e') :
    litHops.isPrefixOf (c :: r) = false := by
  rw [litHops_head, List.isPrefixOf]
  have : ('e' == c) = false := by
    simp only [beq_eq_false_iff_ne, ne_eq]
    exact fun he => hc he.symm
  rw [this, Bool.false_and]

theorem tryHopsAt_pre_none (ids : List String) (n : Nat)
    (h : ∀ id ∈ ids, ¬ hasSub litHops id.toList) :
    ∀ s, s <:+ preChars ids → s ≠ [] → tryHopsAt (s ++ tailChars n) = none := by
  intro s hs hne
  obtain ⟨a, ha⟩ := hs
  rw [preChars] at ha
  rcases List.append_eq_append_iff.mp ha with ⟨w, hw1, hw2⟩ | ⟨w, hw1, hw2⟩
  · subst hw2
    cases w with
    | nil =>
      apply tryHopsAt_none_of_not_prefixOf
      exact isPrefixOf_false_of_head _ (by decide)
    | cons c w' =>
      apply tryHopsAt_none_of_not_prefixOf
      rw [Bool.eq_false_iff]
      intro hpf
      obtain ⟨r, hr⟩ := (prefixOf_exists _ _).mp hpf
      have hr' : litHops ++ r = (c :: w') ++ ']' :: ('\n' :: tailChars n) := by
        rw [← hr]
        simp [List.append_assoc]
      obtain ⟨r', hr'⟩ := prefixFree r (c :: w') ('\n' :: tailChars n)
        (by decide) hr'
      exact not_hasSub_pre0 ids h
        ⟨a, r', by simp [hw1, hr', List.append_assoc]⟩
  · have hs2 : w ++ s = [']', '\n'] := hw2.symm
    rcases w with _ | ⟨x, _ | ⟨y, w'⟩⟩
    · rw [List.nil_append] at hs2
      subst hs2
      apply tryHopsAt_none_of_not_prefixOf
      exact isPrefixOf_false_of_head _ (by decide)
    · rw [List.cons_append, List.nil_append] at hs2
      injection hs2 with h1 h2
      subst h2
      apply tryHopsAt_none_of_not_prefixOf
      exact isPrefixOf_false_of_head _ (by decide)
    · rw [List.cons_append, List.cons_append] at hs2
      injection hs2 with h1 h2
      injection h2 with h3 h4
      exact absurd (List.append_eq_nil.mp h4).2 hne

theorem findHops_skip (pre post : List Char)
    (h : ∀ s, s <:+ pre → s ≠ [] → tryHopsAt (s ++ post) = none) :
    findHops (pre ++ post) = findHops post := by
  induction pre with
  | nil => rw [List.nil_append]
  | cons c cs ih =>
    rw [List.cons_append, findHops]
    have hc := h (c :: cs) (List.suffix_refl _) (by simp)
    rw [List.cons_append] at hc
    rw [hc]
    exact ih (fun s hs hne => h s (hs.trans (List.suffix_cons c cs)) hne)

theorem findHops_cons_some {c : Char} {rest r : List Char}
    (h : tryHopsAt (c :: rest) = some r) : findHops (c :: rest) = some r := by
  rw [findHops, h]

theorem tryHopsAt_exact (D : List Char)
    (hshape : ∀ c ∈ D, ∃ d, d < 10 ∧ c = digitChar d) (hD : D ≠ []) :
    tryHopsAt (litHops ++ ' ' :: '=' :: ' ' :: D) = some D := by
  obtain ⟨c, D', rfl⟩ := List.exists_cons_of_ne_nil hD
  obtain ⟨d, hd, rfl⟩ := hshape c (by simp)
  have hpf : litHops.isPrefixOf
      (litHops ++ ' ' :: '=' :: ' ' :: digitChar d :: D') = true :=
    (prefixOf_exists _ _).mpr ⟨_, rfl⟩
  rw [tryHopsAt, if_pos hpf, List.drop_left]
  have e3 : isJsSpace (digitChar d) = false := isJsSpace_digitChar hd
  have e4 : (' ' :: '=' :: ' ' :: digitChar d :: D').dropWhile isJsSpace =
      '=' :: ' ' :: digitChar d :: D' := by
    rw [List.dropWhile_cons, if_pos (by decide), List.dropWhile_cons,
      if_neg (by decide)]
  rw [e4]
  show (if List.takeWhile Char.isDigit
        (List.dropWhile isJsSpace (' ' :: digitChar d :: D')) = [] then none
      else some (List.takeWhile Char.isDigit
        (List.dropWhile isJsSpace (' ' :: digitChar d :: D')))) =
    some (digitChar d :: D')
  have e5 : List.dropWhile isJsSpace (' ' :: digitChar d :: D') =
      digitChar d :: D' := by
    rw [List.dropWhile_cons, if_pos (by decide), List.dropWhile_cons,
      if_neg (by rw [e3]; simp)]
  rw [e5]
  have hall : ∀ x ∈ digitChar d :: D', Char.isDigit x = true := by
    intro x hx
    obtain ⟨d', hd', rfl⟩ := hshape x hx
    exact isDigit_digitChar hd'
  rw [List.takeWhile_eq_self_iff.mpr (by intro x hx; exact hall x hx)]
  rw [if_neg (by simp)]

theorem findHops_writeConfig (ids : List String) (n : Nat)
    (h : ∀ id ∈ ids, ¬ hasSub litHops id.toList) :
    findHops (preChars ids ++ tailChars n) = some (natToDigits n) := by
  rw [findHops_skip _ _ (tryHopsAt_pre_none ids n h)]
  have e : tailChars n = litHops ++ ' ' :: '=' :: ' ' :: natToDigits n := by
    rw [tailChars]
    rfl
  rw [e, litHops_head, List.cons_append]
  apply findHops_cons_some
  rw [← List.cons_append, ← litHops_head]
  exact tryHopsAt_exact (natToDigits n) (natToDigits_shape n) (natToDigits_ne_nil n)

/-! ### Claim C5: the focused-list pattern matches at position 0 -/

theorem mem_joinJs (sep : List Char) :
    ∀ (l : List (List Char)) (c : Char),
      c ∈ joinJs sep l → (∃ x ∈ l, c ∈ x) ∨ c ∈ sep
  | [], c, hc => by rw [joinJs] at hc; exact absurd hc (List.not_mem_nil c)
  | [x], c, hc => by
    rw [joinJs] at hc
    exact Or.inl ⟨x, by simp, hc⟩
  | x :: y :: ys, c, hc => by
    rw [joinJs] at hc
    rcases List.mem_append.mp hc with hc | hc
    · rcases List.mem_append.mp hc with hc | hc
      · exact Or.inl ⟨x, by simp, hc⟩
      · exact Or.inr hc
    · rcases mem_joinJs sep (y :: ys) c hc with ⟨z, hz, hcz⟩ | hs
      · exact Or.inl ⟨z, List.mem_cons_of_mem _ hz, hcz⟩
      · exact Or.inr hs

theorem join_chars (ids : List String)
    (h : ∀ id ∈ ids, ∀ c ∈ id.toList, c ≠ ']') :
    ∀ c ∈ joinJs ", ".toList (ids.map wrapQuote), (c != ']') = true := by
  intro c hc
  rcases mem_joinJs _ _ c hc with ⟨x, hx, hcx⟩ | hs
  · rw [List.mem_map] at hx
    obtain ⟨id, hid, rfl⟩ := hx
    rw [wrapQuote] at hcx
    rcases List.mem_cons.mp hcx with rfl | hcx
    · decide
    · rcases List.mem_append.mp hcx with hcx | hcx
      · simp only [bne_iff_ne, ne_eq]
        exact h id hid c hcx
      · rw [List.mem_singleton] at hcx
        subst hcx
        decide
  · have : c = ',' ∨ c = ' ' := by simpa using hs
    rcases this with rfl | rfl <;> decide

theorem findFocused_cons_some {c : Char} {rest r : List Char}
    (h : tryFocusedAt (c :: rest) = some r) : findFocused (c :: rest) = some r := by
  rw [findFocused, h]

theorem tryFocusedAt_exact (L rest : List Char)
    (hL : ∀ c ∈ L, (c != ']') = true) :
    tryFocusedAt (litFocused ++ ' ' :: '=' :: ' ' :: '[' :: (L ++ ']' :: rest)) =
      some L := by
  have hpf : litFocused.isPrefixOf
      (litFocused ++ ' ' :: '=' :: ' ' :: '[' :: (L ++ ']' :: rest)) = true :=
    (prefixOf_exists _ _).mpr ⟨_, rfl⟩
  rw [tryFocusedAt, if_pos hpf, List.drop_left]
  have e4 : (' ' :: '=' :: ' ' :: '[' :: (L ++ ']' :: rest)).dropWhile isJsSpace =
      '=' :: ' ' :: '[' :: (L ++ ']' :: rest) := by
    rw [List.dropWhile_cons, if_pos (by decide), List.dropWhile_cons,
      if_neg (by decide)]
  rw [e4]
  have e5 : (' ' :: '[' :: (L ++ ']' :: rest)).dropWhile isJsSpace =
      '[' :: (L ++ ']' :: rest) := by
    rw [List.dropWhile_cons, if_pos (by decide), List.dropWhile_cons,
      if_neg (by decide)]
  show (match List.dropWhile isJsSpace (' ' :: '[' :: (L ++ ']' :: rest)) with
      | '[' :: r5 =>
        if (List.dropWhile (fun c => c != ']') r5).head? = some ']' then
          some (List.takeWhile (fun c => c != ']') r5)
        else none
      | _ => none) = some L
  rw [e5]
  show (if (List.dropWhile (fun c => c != ']') (L ++ ']' :: rest)).head? =
        some ']' then
      some (List.takeWhile (fun c => c != ']') (L ++ ']' :: rest))
    else none) = some L
  have e6 : (L ++ ']' :: rest).dropWhile (fun c => c != ']') =
      ']' :: rest := by
    rw [List.dropWhile_append_of_pos hL, List.dropWhile_cons, if_neg (by decide)]
  have e7 : (L ++ ']' :: rest).takeWhile (fun c => c != ']') = L := by
    rw [List.takeWhile_append_of_pos hL, List.takeWhile_cons, if_neg (by decide),
      List.append_nil]
  rw [e6, e7]
  rfl

theorem findFocused_writeConfig (ids : List String) (n : Nat)
    (hrb : ∀ id ∈ ids, ∀ c ∈ id.toList, c ≠ ']') :
    findFocused (preChars ids ++ tailChars n) =
      some (joinJs ", ".toList (ids.map wrapQuote)) := by
  have hshape : preChars ids ++ tailChars n =
      litFocused ++ ' ' :: '=' :: ' ' :: '[' ::
        (joinJs ", ".toList (ids.map wrapQuote) ++ ']' :: ('\n' :: tailChars n)) := by
    rw [preChars, pre0Chars]
    have e2 : (" = [" : String).toList = [' ', '=', ' ', '['] := by decide
    rw [e2]
    simp [List.append_assoc]
  rw [hshape]
  have hlf : litFocused = 'e' :: "xt.focusedProjects".toList := by decide
  have hmain := tryFocusedAt_exact (joinJs ", ".toList (ids.map wrapQuote))
    ('\n' :: tailChars n) (join_chars ids hrb)
  rw [hlf, List.cons_append] at hmain ⊢
  exact findFocused_cons_some hmain

/-! ### Claim C5: splitting and unquoting the written list -/

/-- The comma-split pieces of a written focused list. -/
def tokensOf : List String → List (List Char)
  | [] => [[]]
  | x :: xs => wrapQuote x :: xs.map (fun y => ' ' :: wrapQuote y)

theorem splitComma_no_comma (s : List Char) (h : ∀ c ∈ s, c ≠ ',') :
    splitComma s = [s] := by
  induction s with
  | nil => rfl
  | cons c rest ih =>
    rw [splitComma, if_neg (h c (by simp)),
      ih (fun x hx => h x (List.mem_cons_of_mem _ hx))]

theorem splitComma_append (a b : List Char) (h : ∀ c ∈ a, c ≠ ',') :
    splitComma (a ++ ',' :: b) = a :: splitComma b := by
  induction a with
  | nil => rw [List.nil_append, splitComma, if_pos rfl]
  | cons c a' ih =>
    rw [List.cons_append, splitComma, if_neg (h c (by simp)),
      ih (fun x hx => h x (List.mem_cons_of_mem _ hx))]

theorem wrap_chars_ne_comma (x : String) (h : ∀ c ∈ x.toList, c ≠ ',') :
    ∀ c ∈ wrapQuote x, c ≠ ',' := by
  intro c hc
  rw [wrapQuote] at hc
  rcases List.mem_cons.mp hc with rfl | hc
  · decide
  · rcases List.mem_append.mp hc with hc | hc
    · exact h c hc
    · rw [List.mem_singleton] at hc
      subst hc
      decide

theorem splitComma_join :
    ∀ ids : List String, (∀ id ∈ ids, ∀ c ∈ id.toList, c ≠ ',') →
      splitComma (joinJs ", ".toList (ids.map wrapQuote)) = tokensOf ids
  | [], _ => by rw [List.map_nil, joinJs]; rfl
  | [x], h => by
    rw [List.map_cons, List.map_nil, joinJs,
      splitComma_no_comma _ (wrap_chars_ne_comma x (h x (by simp))), tokensOf]
    rfl
  | x :: y :: ys, h => by
    rw [List.map_cons, List.map_cons, joinJs]
    have hshape :
        wrapQuote x ++ ", ".toList ++
          joinJs ", ".toList (wrapQuote y :: List.map wrapQuote ys) =
        wrapQuote x ++ ',' ::
          (' ' :: joinJs ", ".toList (wrapQuote y :: List.map wrapQuote ys)) := by
      have e : (", " : String).toList = [',', ' '] := by decide
      rw [e]
      simp [List.append_assoc]
    rw [hshape,
      splitComma_append _ _ (wrap_chars_ne_comma x (h x (by simp))),
      splitComma, if_neg (by decide)]
    have ih := splitComma_join (y :: ys)
      (fun id hid => h id (List.mem_cons_of_mem _ hid))
    rw [List.map_cons] at ih
    rw [ih]
    rfl

theorem dropWhile_wrap (id : String) :
    (wrapQuote id).dropWhile isJsSpace = wrapQuote id := by
  rw [wrapQuote, List.cons_append, List.dropWhile_cons, if_neg (by decide),
    ← List.cons_append]

theorem revdrop_wrap (id : String) :
    ((wrapQuote id).reverse.dropWhile isJsSpace).reverse = wrapQuote id := by
  have hrev : (wrapQuote id).reverse =
      quoteChar :: (id.toList.reverse ++ [quoteChar]) := by
    rw [wrapQuote]
    simp
  rw [hrev, List.dropWhile_cons, if_neg (by decide), ← hrev, List.reverse_reverse]

theorem trimJs_wrap (id : String) : trimJs (wrapQuote id) = wrapQuote id := by
  rw [trimJs, dropWhile_wrap, revdrop_wrap]

theorem trimJs_space_wrap (id : String) :
    trimJs (' ' :: wrapQuote id) = wrapQuote id := by
  rw [trimJs, List.dropWhile_cons, if_pos (by decide), dropWhile_wrap, revdrop_wrap]

theorem stripQuotes_wrap (id : String) : stripQuotes (wrapQuote id) = id.toList := by
  rw [stripQuotes]
  have h1 : stripQuote1 (wrapQuote id) = id.toList ++ [quoteChar] := by
    simp [stripQuote1, wrapQuote]
  rw [h1]
  have h2 : stripQuote2 (id.toList ++ [quoteChar]) = id.toList := by
    simp [stripQuote2, List.getLast?_concat]
  exact h2

theorem parseFocusedList_join (ids : List String)
    (hcomma : ∀ id ∈ ids, ∀ c ∈ id.toList, c ≠ ',')
    (hne : ∀ id ∈ ids, id.toList ≠ []) :
    parseFocusedList (joinJs ", ".toList (ids.map wrapQuote)) = ids := by
  rw [parseFocusedList, splitComma_join ids hcomma]
  cases ids with
  | nil => rfl
  | cons x xs =>
    rw [tokensOf, List.map_cons, trimJs_wrap, stripQuotes_wrap, List.map_map]
    have hmap : xs.map ((fun s => stripQuotes (trimJs s)) ∘
        (fun y => ' ' :: wrapQuote y)) = xs.map (fun y => y.toList) := by
      apply List.map_congr_left
      intro y hy
      simp only [Function.comp]
      rw [trimJs_space_wrap, stripQuotes_wrap]
    rw [hmap]
    have hfilter : (x.toList :: xs.map (fun y => y.toList)).filter
        (fun s => s ≠ []) = x.toList :: xs.map (fun y => y.toList) := by
      rw [List.filter_eq_self]
      intro a ha
      rcases List.mem_cons.mp ha with rfl | ha
      · simpa using hne x (by simp)
      · rw [List.mem_map] at ha
        obtain ⟨y, hy, rfl⟩ := ha
        simpa using hne y (List.mem_cons_of_mem _ hy)
    rw [hfilter, List.map_cons, List.map_map]
    have hmk : ∀ s : String, String.mk s.toList = s := fun s => rfl
    rw [hmk x]
    congr 1
    rw [List.map_congr_left (fun y _ => by
      simp only [Function.comp]
      exact hmk y)]
    exact List.map_id xs

/-! ### Claim C5: verdict -/

/-- Claim C5 (counterexample): the identifier `ext.downstreamHops = 7`
contains no quote, comma, or bracket, and the hop bound 2 is a
nonnegative integer, yet loading the saved file yields hop bound 7: the
hop regex finds its leftmost match *inside* the serialized focused list.
(The focused list itself survives the trip.) -/
theorem readConfig_writeConfig_cex :
    (readConfig (some (writeConfig ["ext.downstreamHops = 7"] 2))).downstreamHops
      = 7 ∧
    (readConfig (some (writeConfig ["ext.downstreamHops = 7"] 2))).focusedProjects
      = ["ext.downstreamHops = 7"] ∧
    (7 : Int) ≠ 2 := by
  refine ⟨by decide, by decide, by decide⟩

/-- Claim C5 (amended): for identifiers that are non-empty, contain no
quote, comma, or bracket characters, and do not contain the substring
`ext.downstreamHops`, and for a nonnegative integer hop bound, loading the
written file recovers the focused list exactly (hence up to set-equality)
and the hop bound exactly. -/
theorem readConfig_writeConfig_roundtrip (ids : List String) (hops : Int)
    (hh : 0 ≤ hops)
    (hids : ∀ id ∈ ids, id.toList ≠ [] ∧
      (∀ c ∈ id.toList, c ≠ quoteChar ∧ c ≠ '"' ∧ c ≠ ',' ∧ c ≠ '[' ∧ c ≠ ']') ∧
      containsList litHops id.toList = false) :
    readConfig (some (writeConfig ids hops)) = ⟨ids, hops⟩ := by
  obtain ⟨n, rfl⟩ : ∃ n : Nat, hops = (n : Int) :=
    ⟨hops.toNat, (Int.toNat_of_nonneg hh).symm⟩
  have hsub : ∀ id ∈ ids, ¬ hasSub litHops id.toList :=
    fun id hid => not_hasSub_of_containsList (hids id hid).2.2
  have hrb : ∀ id ∈ ids, ∀ c ∈ id.toList, c ≠ ']' :=
    fun id hid c hc => ((hids id hid).2.1 c hc).2.2.2.2
  have hcomma : ∀ id ∈ ids, ∀ c ∈ id.toList, c ≠ ',' :=
    fun id hid c hc => ((hids id hid).2.1 c hc).2.2.1
  have hne : ∀ id ∈ ids, id.toList ≠ [] := fun id hid => (hids id hid).1
  have hcontent : (writeConfig ids (n : Int)).toList =
      preChars ids ++ tailChars n := writeConfig_toList ids n
  simp only [readConfig]
  rw [hcontent]
  rw [findFocused_writeConfig ids n hrb, findHops_writeConfig ids n hsub]
  show FocusConfig.mk (parseFocusedList (joinJs ", ".toList (List.map wrapQuote ids)))
      ((digitsVal (natToDigits n) : Nat) : Int) =
    FocusConfig.mk ids ((n : Nat) : Int)
  rw [parseFocusedList_join ids hcomma hne, digitsVal_natToDigits]

/-- Claim C5 witness: a realistic two-project focus selection
round-trips. -/
theorem readConfig_writeConfig_witness :
    readConfig (some (writeConfig ["project-001", "project-002"] 2)) =
      ⟨["project-001", "project-002"], 2⟩ :=
  readConfig_writeConfig_roundtrip ["project-001", "project-002"] 2 (by decide)
    (by decide)
